import Mathlib

/-!
Shallow embedding of `gitpy-versioning` (src/__init__.py), the git-based
version-string resolver.  Strings are modelled as `List Char` internally;
the Python regular expressions are embedded as executable matchers whose
greedy strategy is equivalent to the backtracking semantics of the
original patterns (the individual components of each pattern start with
characters from pairwise disjoint alphabets, so the greedy choice never
loses a match; this is argued at each definition).
-/

namespace GitPy

/-! ## Character classes of the regular expressions in the source -/

/-- The character class `[0-9]` (`INTEGER`). -/
def isDigitC (c : Char) : Bool :=
  48 ≤ c.toNat && c.toNat ≤ 57

/-- The character class `[A-Za-z]`. -/
def isAlphaC (c : Char) : Bool :=
  (65 ≤ c.toNat && c.toNat ≤ 90) || (97 ≤ c.toNat && c.toNat ≤ 122)

/-- The class of `ALPHA_NUM_PERIOD_UNDER_HYPHEN = '[A-Za-z0-9.\-\_]+$'`:
ASCII letters, digits, period (46), hyphen (45), underscore (95). -/
def localChar (c : Char) : Bool :=
  isAlphaC c || isDigitC c || c.toNat = 46 || c.toNat = 45 || c.toNat = 95

/-- The class of `ALPHA_PERIOD_PLUS_UNDER_HYPHEN = '[A-Za-z.\+\-\_]+'`:
ASCII letters, period (46), plus (43), hyphen (45), underscore (95) —
note: no digits. -/
def sepChar (c : Char) : Bool :=
  isAlphaC c || c.toNat = 46 || c.toNat = 43 || c.toNat = 45 || c.toNat = 95

/-- Python's `\s` for `str` patterns, and the class stripped by
`str.strip()` / tolerated by `int()`: ASCII whitespace, the file/group
separators, and the Unicode whitespace code points. -/
def pySpace (c : Char) : Bool :=
  (9 ≤ c.toNat && c.toNat ≤ 13) || c.toNat = 32 ||
  (28 ≤ c.toNat && c.toNat ≤ 31) || c.toNat = 133 || c.toNat = 160 ||
  c.toNat = 5760 || (8192 ≤ c.toNat && c.toNat ≤ 8202) ||
  c.toNat = 8232 || c.toNat = 8233 || c.toNat = 8239 ||
  c.toNat = 8287 || c.toNat = 12288

/-! ## Generic list lemmas used throughout -/

theorem takeWhile_append_all {α} (p : α → Bool) :
    ∀ (t r : List α), (∀ c ∈ t, p c = true) →
      (t ++ r).takeWhile p = t ++ r.takeWhile p := by
  intro t r h
  induction t with
  | nil => simp
  | cons a t ih =>
    have ha : p a = true := h a (List.mem_cons_self a t)
    simp only [List.cons_append, List.takeWhile_cons, ha, if_true]
    rw [ih (fun c hc => h c (List.mem_cons_of_mem a hc))]

theorem dropWhile_append_all {α} (p : α → Bool) :
    ∀ (t r : List α), (∀ c ∈ t, p c = true) →
      (t ++ r).dropWhile p = r.dropWhile p := by
  intro t r h
  induction t with
  | nil => simp
  | cons a t ih =>
    have ha : p a = true := h a (List.mem_cons_self a t)
    simp only [List.cons_append, List.dropWhile_cons, ha, if_true]
    exact ih (fun c hc => h c (List.mem_cons_of_mem a hc))

theorem takeWhile_nil_of_head_false {α} (p : α → Bool) (c : α) (r : List α)
    (h : p c = false) : (c :: r).takeWhile p = [] := by
  simp [List.takeWhile_cons, h]

theorem dropWhile_id_of_head_false {α} (p : α → Bool) (c : α) (r : List α)
    (h : p c = false) : (c :: r).dropWhile p = c :: r := by
  simp [List.dropWhile_cons, h]

theorem takeWhile_all {α} (p : α → Bool) (l : List α)
    (h : ∀ c ∈ l, p c = true) : l.takeWhile p = l := by
  have := takeWhile_append_all p l [] h
  simpa using this

theorem dropWhile_all_nil {α} (p : α → Bool) (l : List α)
    (h : ∀ c ∈ l, p c = true) : l.dropWhile p = [] := by
  have := dropWhile_append_all p l [] h
  simpa using this

/-- A list of characters that all satisfy `p`'s negation-free class is a
prefix of itself appended to anything. -/
theorem isPrefixOf_append_self {α} [BEq α] [LawfulBEq α] :
    ∀ (l r : List α), l.isPrefixOf (l ++ r) = true := by
  intro l r
  induction l with
  | nil => simp [List.isPrefixOf]
  | cons a l ih => simp [List.isPrefixOf, ih]

/-! ## Class disjointness facts -/

theorem digit_not_space {c : Char} (h : isDigitC c = true) : pySpace c = false := by
  simp only [isDigitC, Bool.and_eq_true, decide_eq_true_eq] at h
  simp only [pySpace, Bool.or_eq_false_iff, Bool.and_eq_false_iff,
    decide_eq_false_iff_not, not_le]
  omega

theorem digit_not_sep {c : Char} (h : isDigitC c = true) : sepChar c = false := by
  simp only [isDigitC, Bool.and_eq_true, decide_eq_true_eq] at h
  simp only [sepChar, isAlphaC, Bool.or_eq_false_iff, Bool.and_eq_false_iff,
    decide_eq_false_iff_not, not_le]
  omega

theorem space_not_sep {c : Char} (h : pySpace c = true) : sepChar c = false := by
  simp only [pySpace, Bool.or_eq_true, Bool.and_eq_true, decide_eq_true_eq] at h
  simp only [sepChar, isAlphaC, Bool.or_eq_false_iff, Bool.and_eq_false_iff,
    decide_eq_false_iff_not, not_le]
  omega

theorem space_not_digit {c : Char} (h : pySpace c = true) : isDigitC c = false := by
  simp only [pySpace, Bool.or_eq_true, Bool.and_eq_true, decide_eq_true_eq] at h
  simp only [isDigitC, Bool.and_eq_false_iff, decide_eq_false_iff_not, not_le]
  omega

/-! ## Python string primitives used by the source -/

/-- Value of a run of decimal digits. -/
def digitsToNat (ds : List Char) : Nat :=
  ds.foldl (fun a c => 10 * a + (c.toNat - 48)) 0

/-- Helper for `pyInt`: parse `[0-9]+` followed only by whitespace. -/
def pyIntDigits (l : List Char) (sign : Int) : Option Int :=
  let ds := l.takeWhile isDigitC
  if ds.isEmpty then none
  else if (l.dropWhile isDigitC).all pySpace then
    some (sign * (digitsToNat ds : Int))
  else none

/-- Python's `int(str)`: optional surrounding whitespace, optional sign,
then a nonempty digit run.  (Digit-group underscores and non-ASCII digits
are not modelled: every call site in the source feeds this strings that
cannot contain `_`, and the repository's data is ASCII.) -/
def pyInt (l : List Char) : Option Int :=
  let l1 := l.dropWhile pySpace
  match l1 with
  | [] => none
  | c :: r =>
    if c = '+' then pyIntDigits r 1
    else if c = '-' then pyIntDigits r (-1)
    else pyIntDigits l1 1

/-- Python's `s.split(sep)` for a one-character separator: always returns
at least one (possibly empty) part. -/
def splitChar (sep : Char) : List Char → List (List Char)
  | [] => [[]]
  | c :: r =>
    let rest := splitChar sep r
    if c = sep then [] :: rest
    else
      match rest with
      | [] => [[c]]
      | h :: t => (c :: h) :: t

/-- Fuel-driven worker for `removeAll` (fuel bounds the scan length so the
recursion is structural and kernel-reducible). -/
def removeAllAux (pat : List Char) : Nat → List Char → List Char
  | 0, s => s
  | fuel + 1, s =>
    if pat.isPrefixOf s then removeAllAux pat fuel (s.drop pat.length)
    else
      match s with
      | [] => []
      | c :: t => c :: removeAllAux pat fuel t

/-- Python's `s.replace(pat, '')`: remove every (left-to-right,
non-overlapping) occurrence of `pat`.  An empty `pat` leaves `s`
unchanged, as `str.replace(old, '')` does when `old == ''`. -/
def removeAll (s pat : List Char) : List Char :=
  removeAllAux pat s.length s

/-- Python's `s.strip()`: drop whitespace from both ends. -/
def pyStrip (s : String) : String :=
  String.mk (((s.toList.dropWhile pySpace).reverse.dropWhile pySpace).reverse)

/-- Index of the first occurrence of `pat` in `s` (Python `s.find(pat)`),
`-1` when there is none. -/
def strFind (s pat : List Char) : Int :=
  match s.tails.findIdx? (fun t => pat.isPrefixOf t) with
  | some i => (i : Int)
  | none => -1

/-- Whether `pat` occurs as a contiguous substring of `s`. -/
def hasSub (s pat : List Char) : Bool :=
  s.tails.any (fun t => pat.isPrefixOf t)

/-! ## The small pure functions of `src/__init__.py` -/

/-- `valid_local_ver(version)`: `re.match('[A-Za-z0-9.\-\_]+$', version)`.
`re.match` anchors at the start; the final `$` matches at the end of the
string or just before a newline that is the last character.  A shorter
class run can never rescue a failed match (the remainder would then start
with a class character, which is neither the end nor a final newline), so
taking the maximal class run is equivalent to the backtracking search. -/
def valid_local_ver (version : String) : Bool :=
  let l := version.toList
  let p := l.takeWhile localChar
  let r := l.dropWhile localChar
  !p.isEmpty && (r.isEmpty || r = ['\n'])

/-- The trailing element of `re.split('[A-Za-z.\+\-\_]+', version)`: the
maximal suffix containing no character of the class (the text after the
last match of the separator pattern). -/
def lastToken (l : List Char) : List Char :=
  (l.reverse.takeWhile (fun c => !sepChar c)).reverse

/-- `increment_rightmost(version, number)`:
`num_str = re.split(ALPHA_PERIOD_PLUS_UNDER_HYPHEN, version)[-1]` and then
`version[:-len(num_str)] + str(int(num_str) + number)`.  `none` models the
uncaught `ValueError` that `int(num_str)` raises when the trailing token
is not an integer literal (including the empty token, for which the slice
`version[:-0]` would also misbehave, but `int('')` raises first). -/
def increment_rightmost (version : String) (number : Int) : Option String :=
  let l := version.toList
  let tok := lastToken l
  match pyInt tok with
  | none => none
  | some n => some (String.mk (l.take (l.length - tok.length)) ++ toString (n + number))

/-- `is_dev(version)`: `version.find(".dev") > 0` — note the strict
inequality: an occurrence at index 0 does not count. -/
def is_dev (version : String) : Bool :=
  strFind version.toList ['.', 'd', 'e', 'v'] > 0

/-! ## The PEP440 matcher

The source matches tags with
`re.match('[0-9]+(?:\.[0-9]+)*(?:(a|b|c)[0-9]+)?(?:\.post[0-9]+)?(?:\.dev[0-9]+)?\s*$', tag)`.
Every component of the pattern starts from a distinct alphabet
(`.digit` for a further `FINAL` group, `a|b|c` for `PRE`, `.post` for
`POST`, `.dev` for `DEV`, whitespace for the tail), so the greedy
left-to-right strategy below accepts exactly the strings the
backtracking engine accepts; the final `$` (end, or just before a final
newline) is subsumed by `\s*` reaching the true end of the string. -/

/-- Whether a list starts with a decimal digit. -/
def headDigit : List Char → Bool
  | [] => false
  | c :: _ => isDigitC c

/-- Guard of the `FINAL` loop: the input starts with `'.'` followed by a
digit, i.e. another `\.[0-9]+` group can start here. -/
def dotDigitStart : List Char → Bool
  | [] => false
  | c :: r => c = '.' && headDigit r

/-- Fuel-driven worker consuming `(?:\.[0-9]+)*` greedily.  Each step
removes at least two characters, so `fuel = length` always suffices. -/
def finalRestAux : Nat → List Char → List Char
  | 0, s => s
  | fuel + 1, s =>
    match s with
    | [] => []
    | c :: r =>
      if c = '.' then
        if (r.takeWhile isDigitC).isEmpty then c :: r
        else finalRestAux fuel (r.dropWhile isDigitC)
      else c :: r

/-- Consume `(?:\.[0-9]+)*` greedily. -/
def finalRest (s : List Char) : List Char :=
  finalRestAux s.length s

/-- Consume the optional `(a|b|c)[0-9]+` greedily. -/
def chompPre (s : List Char) : List Char :=
  match s with
  | [] => []
  | c :: r =>
    if c = 'a' || c = 'b' || c = 'c' then
      if (r.takeWhile isDigitC).isEmpty then s
      else r.dropWhile isDigitC
    else s

/-- Consume an optional literal-plus-digits group (`\.post[0-9]+` or
`\.dev[0-9]+`) greedily. -/
def chompLit (lit : List Char) (s : List Char) : List Char :=
  if lit.isPrefixOf s then
    let r := s.drop lit.length
    if (r.takeWhile isDigitC).isEmpty then s
    else r.dropWhile isDigitC
  else s

def chompPost (s : List Char) : List Char :=
  chompLit ['.', 'p', 'o', 's', 't'] s

def chompDev (s : List Char) : List Char :=
  chompLit ['.', 'd', 'e', 'v'] s

/-- `re.match(PEP440, s)` as a Bool: `FINAL` then the optional groups,
then nothing but whitespace. -/
def pep440Match (s : List Char) : Bool :=
  if (s.takeWhile isDigitC).isEmpty then false
  else
    (chompDev (chompPost (chompPre (finalRest (s.dropWhile isDigitC))))).all pySpace

/-! ## Errors and the functions of the resolver -/

/-- The failure modes of the resolver.  `envError` stands for Python's
`EnvironmentError` ("not a git repository"), the only class caught by
`get_version`; `indexError` and `valueError` stand for the uncaught
builtin exceptions the source can raise. -/
inductive VerError where
  | invalidTag (msg : String)
  | invalidBranch (msg : String)
  | invalidCommand (msg : String)
  | envError (msg : String)
  | indexError
  | valueError
  deriving Repr, DecidableEq

/-- `validate_tag(tag, pkg_name)` from the source, result `ok` or the
raised `InvalidTag`. -/
def validate_tag (tag : String) (pkg_name : Option String) : Except VerError Unit :=
  match pkg_name with
  | none =>
    if pep440Match tag.toList then Except.ok ()
    else Except.error (VerError.invalidTag (tag ++ " does not follow PEP440"))
  | some pkg =>
    if (pkg.toList ++ ['-']).isPrefixOf tag.toList then
      if pep440Match (tag.toList.drop (pkg.toList.length + 1)) then Except.ok ()
      else Except.error (VerError.invalidTag (tag ++ " does not follow " ++ pkg ++ "- + PEP440"))
    else Except.error (VerError.invalidTag (tag ++ " does not start with " ++ pkg ++ "-"))

/-- The describe-output parsing step of `git_info`:
`raw = long_tag.replace(base_tag, '')`, split on `-`, keep the non-empty
parts; exactly two parts give `(int(commits), sha[1:])`.  A failed tuple
unpacking is re-raised as `InvalidTag`; a failed `int()` (which Python
evaluates outside the `try`) is the uncaught `valueError`. -/
def git_info_parts (parts : List (List Char)) (long_tag base_tag : String) :
    Except VerError (Int × String) :=
  match parts with
  | [c, s] =>
    match pyInt c with
    | some n => Except.ok (n, String.mk (s.drop 1))
    | none => Except.error VerError.valueError
  | _ =>
    Except.error (VerError.invalidTag
      ("Parsing error: The git tag seems to be malformed: base " ++ base_tag ++
        " long " ++ long_tag))

def git_info_parse (long_tag base_tag : String) : Except VerError (Int × String) :=
  git_info_parts
    ((splitChar '-' (removeAll long_tag.toList base_tag.toList)).filter
      (fun p => !p.isEmpty))
    long_tag base_tag

/-- First whitespace-separated token of a line (`ln.split()[0]`), `none`
when the line has no token (Python would raise `IndexError`). -/
def firstToken (ln : List Char) : Option (List Char) :=
  let t := (ln.dropWhile pySpace).takeWhile (fun c => !pySpace c)
  if t.isEmpty then none else some t

/-- Whether a line of `for-each-ref` output survives the filter
`ln.split()[0].find('.dev') < 0`. -/
def keepLine (ln : List Char) : Bool :=
  match firstToken ln with
  | some t => strFind t ['.', 'd', 'e', 'v'] < 0
  | none => false

/-- Tag extraction from the selected line: `line.split(' ')[0][11:]` —
drop the eleven characters of the leading quote plus `refs/tags/`. -/
def extractTag (ln : List Char) : String :=
  String.mk (((splitChar ' ' ln).headD []).drop 11)

/-- `get_non_dev_tag(pkg_name)`, as a function of the raw
`git for-each-ref --sort=taggerdate` output.  The comprehension
`[ln for ln in input.split('\n') if ln.split()[0].find('.dev') < 0]`
raises `IndexError` when some line has no token; `[-1]` raises
`IndexError` when the filtered list is empty.  Otherwise the tag of the
last kept line is validated and returned. -/
def get_non_dev_tag (input : String) (pkg_name : Option String) : Except VerError String :=
  let lns := splitChar '\n' input.toList
  if lns.all (fun ln => (firstToken ln).isSome) then
    match (lns.filter keepLine).getLast? with
    | some line =>
      (validate_tag (extractTag line) pkg_name).map (fun _ => extractTag line)
    | none => Except.error VerError.indexError
  else Except.error VerError.indexError

/-- The typed facts record built by `git_info` (external git data plus
the parsing above).  `commits` is a Python `int`. -/
structure GitInfo where
  branch : String
  tag : String
  commits : Int
  sha : String
  tagged_cmt : String
  cmt : String
  deriving Repr, DecidableEq

/-- The decision chain of `get_version`, as a function of the facts and
of the outcomes of the conditionally-run git queries
`cmt2branch(info.tagged_cmt)`, `get_parent(info.branch)` and
`get_non_dev_tag(pkg_name)` (each of which can itself fail; Python
evaluates `cmt2branch` before `get_parent`, and `get_non_dev_tag` only
inside the branch-local arm after the `valid_local_ver` check). -/
def get_version_core (info : GitInfo)
    (taggedCmtBranch parentBranch nonDevTag : Except VerError String) :
    Except VerError String :=
  if info.cmt = info.tagged_cmt then
    Except.ok info.tag
  else
    match taggedCmtBranch with
    | Except.error e => Except.error e
    | Except.ok tb =>
      match parentBranch with
      | Except.error e => Except.error e
      | Except.ok pb =>
        if tb = pb then
          if valid_local_ver info.branch then
            match nonDevTag with
            | Except.error e => Except.error e
            | Except.ok ndt =>
              Except.ok (ndt ++ "+git." ++ info.branch ++ "." ++ toString info.commits
                ++ "." ++ info.sha)
          else
            Except.error (VerError.invalidBranch (info.branch ++ " is not a valid local version"))
        else if is_dev info.tag then
          match increment_rightmost info.tag info.commits with
          | some v => Except.ok v
          | none => Except.error VerError.valueError
        else
          match increment_rightmost info.tag 1 with
          | some v => Except.ok (v ++ ".dev" ++ toString info.commits)
          | none => Except.error VerError.valueError

/-- Whether an error is Python's `EnvironmentError` — the only class the
`except` clause of `get_version` catches. -/
def isEnvError : VerError → Bool
  | VerError.envError _ => true
  | _ => false

/-- The body of `get_version`'s `try` block: `verify_repository`, then
`git_info`, then the decision chain; the first failure aborts it. -/
def get_version_attempt (repoCheck : Except VerError Unit)
    (infoRes : Except VerError GitInfo)
    (taggedCmtBranch parentBranch nonDevTag : Except VerError String) :
    Except VerError String :=
  match repoCheck with
  | Except.error e => Except.error e
  | Except.ok _ =>
    match infoRes with
    | Except.error e => Except.error e
    | Except.ok info => get_version_core info taggedCmtBranch parentBranch nonDevTag

/-- `get_version`, as a function of the outcomes of its stages:
`repoCheck` is `verify_repository`, `infoRes` the `git_info` outcome, the
three query parameters feed the decision chain, and `v_file` is the
content of the fallback file when it exists.  Only `EnvironmentError`
is caught: it is answered from the fallback file (trimmed) or with the
sentinel `"unknown"`; every other error propagates. -/
def get_version (repoCheck : Except VerError Unit)
    (infoRes : Except VerError GitInfo)
    (taggedCmtBranch parentBranch nonDevTag : Except VerError String)
    (v_file : Option String) : Except VerError String :=
  match get_version_attempt repoCheck infoRes taggedCmtBranch parentBranch nonDevTag with
  | Except.ok v => Except.ok v
  | Except.error e =>
    if isEnvError e then
      Except.ok (match v_file with
        | some content => pyStrip content
        | none => "unknown")
    else Except.error e

/-! ## The declarative PEP440 grammar (the specification's wording)

`FINAL [PRE] [POST] [DEV]` followed by optional trailing whitespace,
where `FINAL` is one or more dot-separated integers, `PRE` is one of
`a|b|c` plus an integer, `POST` is `.post` plus an integer and `DEV` is
`.dev` plus an integer.  This is written independently of the matcher
above, as a decomposition of the string, and proved equivalent to it. -/

/-- A nonempty run of decimal digits. -/
def isDigits (l : List Char) : Bool :=
  !l.isEmpty && l.all isDigitC

/-- One or more dot-separated integers. -/
inductive IsFinal : List Char → Prop where
  | single (d : List Char) : isDigits d = true → IsFinal d
  | cons (d f : List Char) : isDigits d = true → IsFinal f → IsFinal (d ++ '.' :: f)

/-- One of `a|b|c` followed by an integer. -/
def IsPre (l : List Char) : Prop :=
  ∃ c d, (c = 'a' ∨ c = 'b' ∨ c = 'c') ∧ isDigits d = true ∧ l = c :: d

/-- `.post` followed by an integer. -/
def IsPost (l : List Char) : Prop :=
  ∃ d, isDigits d = true ∧ l = '.' :: 'p' :: 'o' :: 's' :: 't' :: d

/-- `.dev` followed by an integer. -/
def IsDev (l : List Char) : Prop :=
  ∃ d, isDigits d = true ∧ l = '.' :: 'd' :: 'e' :: 'v' :: d

/-- An optional grammar component: absent or present. -/
def OptPart (P : List Char → Prop) (l : List Char) : Prop :=
  l = [] ∨ P l

/-- The full grammar: `FINAL [PRE] [POST] [DEV]` plus trailing whitespace. -/
def IsPep440 (l : List Char) : Prop :=
  ∃ f p q d w, IsFinal f ∧ OptPart IsPre p ∧ OptPart IsPost q ∧ OptPart IsDev d ∧
    w.all pySpace = true ∧ l = f ++ (p ++ (q ++ (d ++ w)))

/-- The shape of what `finalRestAux` consumes: a concatenation of
`'.' ++ digits` groups. -/
inductive Groups : List Char → Prop where
  | nil : Groups []
  | grp (d m : List Char) : isDigits d = true → Groups m → Groups ('.' :: (d ++ m))

/-- Head test for the optional `PRE` component. -/
def headABC : List Char → Bool
  | [] => false
  | c :: _ => c = 'a' || c = 'b' || c = 'c'

/-- The stem either is empty or ends in a character of the separator
class of `increment_rightmost`'s splitting pattern. -/
def GoodStem (u : List Char) : Prop :=
  u = [] ∨ ∃ u0 c, u = u0 ++ [c] ∧ sepChar c = true

/-! ## Equivalence of the matcher and the grammar -/

theorem length_dropWhile_le {α} (p : α → Bool) (l : List α) :
    (l.dropWhile p).length ≤ l.length := by
  induction l with
  | nil => simp
  | cons a l ih =>
    rw [List.dropWhile_cons]
    by_cases h : p a
    · simp only [h, if_true]
      exact le_trans ih (Nat.le_succ _)
    · simp [h]

theorem finalRestAux_nil (fuel : Nat) : finalRestAux fuel [] = [] := by
  cases fuel <;> rfl

theorem finalRestAux_fuel :
    ∀ (fuel1 fuel2 : Nat) (s : List Char), s.length ≤ fuel1 → s.length ≤ fuel2 →
      finalRestAux fuel1 s = finalRestAux fuel2 s := by
  intro fuel1
  induction fuel1 with
  | zero =>
    intro fuel2 s h1 _
    have : s = [] := List.eq_nil_of_length_eq_zero (Nat.le_zero.mp h1)
    subst this
    rw [finalRestAux_nil, finalRestAux_nil]
  | succ n ih =>
    intro fuel2 s h1 h2
    match s, fuel2 with
    | [], fuel2 => rw [finalRestAux_nil, finalRestAux_nil]
    | c :: r, 0 => simp at h2
    | c :: r, m + 1 =>
      show finalRestAux (n + 1) (c :: r) = finalRestAux (m + 1) (c :: r)
      simp only [finalRestAux]
      by_cases hc : c = '.'
      · simp only [hc, if_true]
        by_cases hemp : (r.takeWhile isDigitC).isEmpty
        · simp [hemp]
        · simp only [hemp, if_false]
          have hlen : (r.dropWhile isDigitC).length ≤ r.length :=
            length_dropWhile_le _ _
          have hr1 : r.length ≤ n := by simpa using h1
          have hr2 : r.length ≤ m := by simpa using h2
          exact ih m _ (le_trans hlen hr1) (le_trans hlen hr2)
      · simp [hc]

theorem dotDigitStart_cons (r : List Char) :
    dotDigitStart ('.' :: r) = !(r.takeWhile isDigitC).isEmpty := by
  cases r with
  | nil => rfl
  | cons c r' =>
    simp only [dotDigitStart, headDigit, decide_True, Bool.true_and]
    rw [List.takeWhile_cons]
    by_cases h : isDigitC c <;> simp [h]

theorem finalRestAux_noop {s : List Char} (h : dotDigitStart s = false) :
    ∀ fuel, finalRestAux fuel s = s := by
  intro fuel
  cases fuel with
  | zero => rfl
  | succ n =>
    cases s with
    | nil => rfl
    | cons c r =>
      simp only [finalRestAux]
      by_cases hc : c = '.'
      · subst hc
        rw [dotDigitStart_cons] at h
        have hemp : (r.takeWhile isDigitC).isEmpty := by
          cases he : (r.takeWhile isDigitC).isEmpty
          · rw [he] at h; simp at h
          · rfl
        simp [hemp]
      · simp [hc]

theorem finalRest_noop {s : List Char} (h : dotDigitStart s = false) :
    finalRest s = s :=
  finalRestAux_noop h _

theorem finalRest_cons {r : List Char}
    (h : dotDigitStart ('.' :: r) = true) :
    finalRest ('.' :: r) = finalRest (r.dropWhile isDigitC) := by
  rw [dotDigitStart_cons] at h
  have hemp : (r.takeWhile isDigitC).isEmpty = false := by
    cases he : (r.takeWhile isDigitC).isEmpty
    · rfl
    · rw [he] at h; simp at h
  show finalRestAux ('.' :: r).length ('.' :: r) = _
  simp only [List.length_cons, finalRestAux, if_true, hemp, if_false]
  have hlen : (r.dropWhile isDigitC).length ≤ r.length := length_dropWhile_le _ _
  exact finalRestAux_fuel r.length _ _ hlen (le_refl _)

/-! ### Soundness: a successful match yields a grammar decomposition -/

theorem takeWhile_isDigits {l : List Char}
    (h : (l.takeWhile isDigitC).isEmpty = false) :
    isDigits (l.takeWhile isDigitC) = true := by
  simp only [isDigits, Bool.and_eq_true, h, Bool.not_false, true_and]
  rw [List.all_eq_true]
  intro c hc
  exact List.mem_takeWhile_imp hc

theorem finalRestAux_sound :
    ∀ (fuel : Nat) (s : List Char), ∃ m, Groups m ∧ s = m ++ finalRestAux fuel s := by
  intro fuel
  induction fuel with
  | zero => intro s; exact ⟨[], Groups.nil, rfl⟩
  | succ n ih =>
    intro s
    cases s with
    | nil => exact ⟨[], Groups.nil, rfl⟩
    | cons c r =>
      simp only [finalRestAux]
      by_cases hc : c = '.'
      · subst hc
        by_cases hemp : (r.takeWhile isDigitC).isEmpty
        · refine ⟨[], Groups.nil, ?_⟩
          simp [hemp]
        · simp only [hemp, if_true, if_false]
          obtain ⟨m', hg, he⟩ := ih (r.dropWhile isDigitC)
          refine ⟨'.' :: (r.takeWhile isDigitC ++ m'), ?_, ?_⟩
          · exact Groups.grp _ _ (takeWhile_isDigits (by simpa using hemp)) hg
          · have hr : r = r.takeWhile isDigitC ++ r.dropWhile isDigitC :=
              (List.takeWhile_append_dropWhile _ _).symm
            calc '.' :: r = '.' :: (r.takeWhile isDigitC ++ r.dropWhile isDigitC) := by
                  rw [← hr]
              _ = '.' :: (r.takeWhile isDigitC ++ (m' ++ finalRestAux n (r.dropWhile isDigitC))) := by
                  rw [← he]
              _ = '.' :: (r.takeWhile isDigitC ++ m') ++ finalRestAux n (r.dropWhile isDigitC) := by
                  simp
      · exact ⟨[], Groups.nil, by simp [hc]⟩

theorem finalRest_sound (s : List Char) :
    ∃ m, Groups m ∧ s = m ++ finalRest s :=
  finalRestAux_sound s.length s

theorem groups_final {ds m : List Char} (hds : isDigits ds = true) (hg : Groups m) :
    IsFinal (ds ++ m) := by
  induction hg generalizing ds with
  | nil => simpa using IsFinal.single ds hds
  | grp d m' hd _ ih =>
    exact IsFinal.cons ds (d ++ m') hds (ih hd)

theorem chompPre_sound (s : List Char) :
    ∃ p, OptPart IsPre p ∧ s = p ++ chompPre s := by
  cases s with
  | nil => exact ⟨[], Or.inl rfl, rfl⟩
  | cons c r =>
    simp only [chompPre]
    by_cases habc : c = 'a' || c = 'b' || c = 'c'
    · simp only [habc, if_true]
      by_cases hemp : (r.takeWhile isDigitC).isEmpty
      · exact ⟨[], Or.inl rfl, by simp [hemp]⟩
      · simp only [hemp, if_false]
        refine ⟨c :: r.takeWhile isDigitC, Or.inr ?_, ?_⟩
        · refine ⟨c, r.takeWhile isDigitC, ?_, takeWhile_isDigits (by simpa using hemp), rfl⟩
          rcases Bool.or_eq_true_iff.mp habc with h | h
          · rcases Bool.or_eq_true_iff.mp h with h' | h'
            · exact Or.inl (by simpa using h')
            · exact Or.inr (Or.inl (by simpa using h'))
          · exact Or.inr (Or.inr (by simpa using h))
        · have hr : r = r.takeWhile isDigitC ++ r.dropWhile isDigitC :=
            (List.takeWhile_append_dropWhile _ _).symm
          conv_lhs => rw [hr]
          simp
    · exact ⟨[], Or.inl rfl, by simp [habc]⟩

theorem chompLit_sound (lit s : List Char) :
    ∃ p, (p = [] ∨ ∃ d, isDigits d = true ∧ p = lit ++ d) ∧ s = p ++ chompLit lit s := by
  simp only [chompLit]
  by_cases hpre : lit.isPrefixOf s
  · simp only [hpre, if_true]
    by_cases hemp : ((s.drop lit.length).takeWhile isDigitC).isEmpty
    · exact ⟨[], Or.inl rfl, by simp [hemp]⟩
    · simp only [hemp, if_false]
      have hs : s = lit ++ s.drop lit.length := by
        have := List.prefix_iff_eq_append.mp
          ((List.isPrefixOf_iff_prefix).mp hpre)
        conv_lhs => rw [← this]
      refine ⟨lit ++ (s.drop lit.length).takeWhile isDigitC,
        Or.inr ⟨_, takeWhile_isDigits (by simpa using hemp), rfl⟩, ?_⟩
      conv_lhs => rw [hs]
      have hr : s.drop lit.length =
          (s.drop lit.length).takeWhile isDigitC ++ (s.drop lit.length).dropWhile isDigitC :=
        (List.takeWhile_append_dropWhile _ _).symm
      conv_lhs => rw [hr]
      simp
  · exact ⟨[], Or.inl rfl, by simp [hpre]⟩

theorem pep440Match_sound {l : List Char} (h : pep440Match l = true) : IsPep440 l := by
  simp only [pep440Match] at h
  by_cases hemp : (l.takeWhile isDigitC).isEmpty
  · rw [if_pos hemp] at h; exact absurd h (by simp)
  · rw [if_neg hemp] at h
    obtain ⟨m, hg, hm⟩ := finalRest_sound (l.dropWhile isDigitC)
    obtain ⟨p, hp, hps⟩ := chompPre_sound (finalRest (l.dropWhile isDigitC))
    obtain ⟨q, hq, hqs⟩ := chompLit_sound ['.', 'p', 'o', 's', 't']
      (chompPre (finalRest (l.dropWhile isDigitC)))
    obtain ⟨d, hd, hds⟩ := chompLit_sound ['.', 'd', 'e', 'v']
      (chompPost (chompPre (finalRest (l.dropWhile isDigitC))))
    refine ⟨l.takeWhile isDigitC ++ m, p, q, d,
      chompDev (chompPost (chompPre (finalRest (l.dropWhile isDigitC)))), ?_, hp, ?_, ?_, h, ?_⟩
    · exact groups_final (takeWhile_isDigits (by simpa using hemp)) hg
    · rcases hq with hq | ⟨dq, hdq, rfl⟩
      · exact Or.inl hq
      · exact Or.inr ⟨dq, hdq, rfl⟩
    · rcases hd with hd | ⟨dd, hdd, rfl⟩
      · exact Or.inl hd
      · exact Or.inr ⟨dd, hdd, rfl⟩
    · calc l = l.takeWhile isDigitC ++ l.dropWhile isDigitC :=
            (List.takeWhile_append_dropWhile _ _).symm
        _ = l.takeWhile isDigitC ++ (m ++ finalRest (l.dropWhile isDigitC)) := by rw [← hm]
        _ = l.takeWhile isDigitC ++ (m ++ (p ++ chompPre (finalRest (l.dropWhile isDigitC)))) := by
            rw [← hps]
        _ = l.takeWhile isDigitC ++ (m ++ (p ++ (q ++
              chompPost (chompPre (finalRest (l.dropWhile isDigitC)))))) := by
            simp only [chompPost]; rw [← hqs]
        _ = l.takeWhile isDigitC ++ (m ++ (p ++ (q ++ (d ++
              chompDev (chompPost (chompPre (finalRest (l.dropWhile isDigitC)))))))) := by
            simp only [chompDev, chompPost]; simp only [chompPost] at hds; rw [← hds]
        _ = (l.takeWhile isDigitC ++ m) ++ (p ++ (q ++ (d ++
              chompDev (chompPost (chompPre (finalRest (l.dropWhile isDigitC))))))) := by
            simp

/-! ### Completeness: a grammar decomposition makes the matcher succeed -/

theorem class_ne {p : Char → Bool} {c d : Char} (h : p c = true) (hd : p d = false) :
    c ≠ d := by
  intro he
  rw [he] at h
  rw [h] at hd
  exact Bool.noConfusion hd

theorem isDigits_head {d : List Char} (h : isDigits d = true) :
    ∃ c r, d = c :: r ∧ isDigitC c = true := by
  cases d with
  | nil => simp [isDigits] at h
  | cons c r =>
    refine ⟨c, r, rfl, ?_⟩
    simp only [isDigits, Bool.and_eq_true, List.all_eq_true] at h
    exact h.2 c (List.mem_cons_self c r)

theorem isDigits_all {d : List Char} (h : isDigits d = true) :
    ∀ c ∈ d, isDigitC c = true := by
  simp only [isDigits, Bool.and_eq_true, List.all_eq_true] at h
  exact h.2

theorem final_head {f : List Char} (h : IsFinal f) :
    ∃ c r, f = c :: r ∧ isDigitC c = true := by
  induction h with
  | single d hd => exact isDigits_head hd
  | cons d f' hd _ _ =>
    obtain ⟨c, r, rfl, hc⟩ := isDigits_head hd
    exact ⟨c, r ++ '.' :: f', by simp, hc⟩

theorem takeWhile_digits_of_headDigit_false {R : List Char} (h : headDigit R = false) :
    R.takeWhile isDigitC = [] := by
  cases R with
  | nil => rfl
  | cons c r => exact takeWhile_nil_of_head_false _ _ _ h

theorem dropWhile_digits_of_headDigit_false {R : List Char} (h : headDigit R = false) :
    R.dropWhile isDigitC = R := by
  cases R with
  | nil => rfl
  | cons c r => exact dropWhile_id_of_head_false _ _ _ h

theorem final_scan {f : List Char} (hf : IsFinal f) {R : List Char}
    (h1 : headDigit R = false) (h2 : dotDigitStart R = false) :
    ((f ++ R).takeWhile isDigitC).isEmpty = false ∧
      finalRest ((f ++ R).dropWhile isDigitC) = R := by
  induction hf with
  | single d hd =>
    obtain ⟨c, r, hdr, _⟩ := isDigits_head hd
    constructor
    · rw [takeWhile_append_all _ _ _ (isDigits_all hd),
        takeWhile_digits_of_headDigit_false h1, List.append_nil]
      subst hdr; simp
    · rw [dropWhile_append_all _ _ _ (isDigits_all hd),
        dropWhile_digits_of_headDigit_false h1]
      exact finalRest_noop h2
  | cons d f' hd hf' ih =>
    have hassoc : (d ++ '.' :: f') ++ R = d ++ ('.' :: (f' ++ R)) := by simp
    rw [hassoc]
    have hdot : isDigitC '.' = false := by decide
    constructor
    · rw [takeWhile_append_all _ _ _ (isDigits_all hd),
        takeWhile_nil_of_head_false _ _ _ hdot, List.append_nil]
      obtain ⟨c, r, hdr, _⟩ := isDigits_head hd
      subst hdr; simp
    · rw [dropWhile_append_all _ _ _ (isDigits_all hd),
        dropWhile_id_of_head_false _ _ _ hdot]
      have hstart : dotDigitStart ('.' :: (f' ++ R)) = true := by
        rw [dotDigitStart_cons]
        obtain ⟨c, r, hdr, hc⟩ := final_head hf'
        subst hdr
        simp [List.takeWhile_cons, hc]
      rw [finalRest_cons hstart]
      exact ih.2

theorem chompPre_absent {R : List Char} (h : headABC R = false) : chompPre R = R := by
  cases R with
  | nil => rfl
  | cons c r => simp only [chompPre, headABC] at h ⊢; simp [h]

theorem isDigits_isEmpty {d : List Char} (h : isDigits d = true) :
    d.isEmpty = false := by
  cases d with
  | nil => simp [isDigits] at h
  | cons c r => rfl

theorem chompPre_present {c : Char} {dp R : List Char}
    (hc : c = 'a' ∨ c = 'b' ∨ c = 'c') (hd : isDigits dp = true)
    (hR : headDigit R = false) : chompPre ((c :: dp) ++ R) = R := by
  have habc : (c = 'a' || c = 'b' || c = 'c') = true := by
    rcases hc with h | h | h <;> simp [h]
  simp only [List.cons_append, chompPre, habc, if_true]
  rw [takeWhile_append_all _ _ _ (isDigits_all hd),
    takeWhile_digits_of_headDigit_false hR, List.append_nil]
  simp only [isDigits_isEmpty hd, Bool.false_eq_true, if_false]
  rw [dropWhile_append_all _ _ _ (isDigits_all hd),
    dropWhile_digits_of_headDigit_false hR]

theorem chompLit_absent {lit R : List Char} (h : lit.isPrefixOf R = false) :
    chompLit lit R = R := by
  simp [chompLit, h]

theorem chompLit_present {lit dp R : List Char}
    (hd : isDigits dp = true) (hR : headDigit R = false) :
    chompLit lit ((lit ++ dp) ++ R) = R := by
  have hassoc : (lit ++ dp) ++ R = lit ++ (dp ++ R) := by simp
  rw [hassoc]
  simp only [chompLit, isPrefixOf_append_self, if_true, List.drop_left]
  rw [takeWhile_append_all _ _ _ (isDigits_all hd),
    takeWhile_digits_of_headDigit_false hR, List.append_nil]
  simp only [isDigits_isEmpty hd, Bool.false_eq_true, if_false]
  rw [dropWhile_append_all _ _ _ (isDigits_all hd),
    dropWhile_digits_of_headDigit_false hR]

theorem isPrefixOf_cons_false {a b : Char} {l1 l2 : List Char} (h : a ≠ b) :
    (a :: l1).isPrefixOf (b :: l2) = false := by
  simp [List.isPrefixOf, h]

theorem isPrefixOf_nil_false {a : Char} {l1 : List Char} :
    (a :: l1).isPrefixOf [] = false := rfl

/-- Head facts about a pure-whitespace tail. -/
theorem tailw_facts {w : List Char} (hw : w.all pySpace = true) :
    headDigit w = false ∧ dotDigitStart w = false ∧ headABC w = false ∧
      (∀ t : List Char, ('.' :: t).isPrefixOf w = false) := by
  cases w with
  | nil => exact ⟨rfl, rfl, rfl, fun t => rfl⟩
  | cons c r =>
    have hc : pySpace c = true := by
      rw [List.all_eq_true] at hw
      exact hw c (List.mem_cons_self c r)
    have hdig : isDigitC c = false := space_not_digit hc
    have hdot : c ≠ '.' := class_ne hc (by decide)
    have ha : c ≠ 'a' := class_ne hc (by decide)
    have hb : c ≠ 'b' := class_ne hc (by decide)
    have hcc : c ≠ 'c' := class_ne hc (by decide)
    refine ⟨hdig, ?_, ?_, ?_⟩
    · simp [dotDigitStart, Ne.symm hdot, hdot]
    · simp [headABC, ha, hb, hcc]
    · intro t
      exact isPrefixOf_cons_false (Ne.symm hdot)

/-- Head facts about the `[DEV]`-then-whitespace tail. -/
theorem tail3_facts {d w : List Char} (hd : OptPart IsDev d)
    (hw : w.all pySpace = true) :
    headDigit (d ++ w) = false ∧ dotDigitStart (d ++ w) = false ∧
      headABC (d ++ w) = false ∧
      (['.', 'p', 'o', 's', 't'].isPrefixOf (d ++ w)) = false := by
  have e1 : isDigitC '.' = false := by decide
  rcases hd with rfl | ⟨dd, hdd, rfl⟩
  · obtain ⟨h1, h2, h3, h4⟩ := tailw_facts hw
    exact ⟨by simpa using h1, by simpa using h2, by simpa using h3, by simpa using h4 _⟩
  · have e2 : isDigitC 'd' = false := by decide
    have e3 : (('a' : Char) = 'd') = False := by simp
    refine ⟨?_, ?_, ?_, ?_⟩
    · simp only [List.cons_append, headDigit, e1]
    · simp only [List.cons_append, dotDigitStart, headDigit, e2, decide_True,
        Bool.true_and]
    · simp only [List.cons_append, headABC]
      decide
    · have hpd : (('p' : Char) == 'd') = false := by decide
      simp only [List.cons_append]
      simp [List.isPrefixOf, hpd]

/-- Head facts about the `[POST] [DEV]`-then-whitespace tail. -/
theorem tail2_facts {q d w : List Char} (hq : OptPart IsPost q)
    (hd : OptPart IsDev d) (hw : w.all pySpace = true) :
    headDigit (q ++ (d ++ w)) = false ∧ dotDigitStart (q ++ (d ++ w)) = false ∧
      headABC (q ++ (d ++ w)) = false := by
  have h3 := tail3_facts hd hw
  have e1 : isDigitC '.' = false := by decide
  have e2 : isDigitC 'p' = false := by decide
  rcases hq with rfl | ⟨dq, hdq, rfl⟩
  · exact ⟨by simpa using h3.1, by simpa using h3.2.1, by simpa using h3.2.2.1⟩
  · refine ⟨?_, ?_, ?_⟩
    · simp only [List.cons_append, headDigit, e1]
    · simp only [List.cons_append, dotDigitStart, headDigit, e2, decide_True,
        Bool.true_and]
    · simp only [List.cons_append, headABC]
      decide

/-- Head facts about the `[PRE] [POST] [DEV]`-then-whitespace tail. -/
theorem tail1_facts {p q d w : List Char} (hp : OptPart IsPre p)
    (hq : OptPart IsPost q) (hd : OptPart IsDev d) (hw : w.all pySpace = true) :
    headDigit (p ++ (q ++ (d ++ w))) = false ∧
      dotDigitStart (p ++ (q ++ (d ++ w))) = false := by
  have h2 := tail2_facts hq hd hw
  rcases hp with rfl | ⟨c, dp, hc, hdp, rfl⟩
  · exact ⟨by simpa using h2.1, by simpa using h2.2.1⟩
  · have e1 : isDigitC c = false := by
      rcases hc with rfl | rfl | rfl <;> decide
    have e2 : (c = '.') = False := by
      rcases hc with rfl | rfl | rfl <;> simp
    refine ⟨?_, ?_⟩
    · simp only [List.cons_append, headDigit, e1]
    · simp only [List.cons_append, dotDigitStart, e2, decide_False, Bool.false_and]

theorem pep440Match_complete {l : List Char} (h : IsPep440 l) :
    pep440Match l = true := by
  obtain ⟨f, p, q, d, w, hf, hp, hq, hd, hw, rfl⟩ := h
  obtain ⟨hh1, hh2⟩ := tail1_facts hp hq hd hw
  have hscan := final_scan hf hh1 hh2
  have h2 := tail2_facts hq hd hw
  have h3 := tail3_facts hd hw
  have hw4 := tailw_facts hw
  have hpre_step : chompPre (p ++ (q ++ (d ++ w))) = q ++ (d ++ w) := by
    rcases hp with rfl | ⟨c, dp, hc, hdp, rfl⟩
    · exact chompPre_absent (by simpa using h2.2.2)
    · exact chompPre_present hc hdp h2.1
  have hpost_step : chompPost (q ++ (d ++ w)) = d ++ w := by
    rcases hq with rfl | ⟨dq, hdq, rfl⟩
    · exact chompLit_absent (by simpa using h3.2.2.2)
    · have : ('.' :: 'p' :: 'o' :: 's' :: 't' :: dq) ++ (d ++ w) =
          (['.', 'p', 'o', 's', 't'] ++ dq) ++ (d ++ w) := by simp
      rw [chompPost, this]
      exact chompLit_present hdq h3.1
  have hdev_step : chompDev (d ++ w) = w := by
    rcases hd with rfl | ⟨dd, hdd, rfl⟩
    · exact chompLit_absent (by simpa using hw4.2.2.2 ['d', 'e', 'v'])
    · have : ('.' :: 'd' :: 'e' :: 'v' :: dd) ++ w =
          (['.', 'd', 'e', 'v'] ++ dd) ++ w := by simp
      rw [chompDev, this]
      exact chompLit_present hdd hw4.1
  simp only [pep440Match, hscan.1, if_false, Bool.false_eq_true]
  rw [hscan.2, hpre_step, hpost_step, hdev_step]
  exact hw

/-- The executable matcher accepts exactly the strings of the
specification's grammar. -/
theorem pep440Match_iff (l : List Char) : pep440Match l = true ↔ IsPep440 l :=
  ⟨pep440Match_sound, pep440Match_complete⟩

/-! ## Every accepted tag ends in digits (plus whitespace) -/

theorem goodStem_extend {u0 : List Char} {c : Char} (h : sepChar c = true)
    (v : List Char) : GoodStem (v ++ (u0 ++ [c])) := by
  right
  exact ⟨v ++ u0, c, by simp, h⟩

theorem final_suffix {f : List Char} (hf : IsFinal f) :
    ∃ u ds, f = u ++ ds ∧ isDigits ds = true ∧ GoodStem u := by
  induction hf with
  | single d hd => exact ⟨[], d, rfl, hd, Or.inl rfl⟩
  | cons d f' hd _ ih =>
    obtain ⟨u', ds', he, hds', hu'⟩ := ih
    rcases hu' with rfl | ⟨u0, c, rfl, hc⟩
    · refine ⟨d ++ ['.'], ds', ?_, hds', ?_⟩
      · rw [he]; simp
      · exact Or.inr ⟨d, '.', rfl, by decide⟩
    · refine ⟨d ++ '.' :: (u0 ++ [c]), ds', ?_, hds', ?_⟩
      · rw [he]; simp
      · have : d ++ '.' :: (u0 ++ [c]) = (d ++ '.' :: u0) ++ [c] := by simp
        rw [this]
        exact Or.inr ⟨d ++ '.' :: u0, c, rfl, hc⟩

/-- Every string of the PEP440 grammar splits as
`stem ++ digits ++ whitespace` where the stem is empty or ends in a
separator-class character: the raw material for `increment_rightmost`. -/
theorem pep440_suffix {l : List Char} (h : IsPep440 l) :
    ∃ u ds w, l = u ++ (ds ++ w) ∧ isDigits ds = true ∧
      w.all pySpace = true ∧ GoodStem u := by
  obtain ⟨f, p, q, d, w, hf, hp, hq, hd, hw, rfl⟩ := h
  rcases hd with rfl | ⟨dd, hdd, rfl⟩
  · rcases hq with rfl | ⟨dq, hdq, rfl⟩
    · rcases hp with rfl | ⟨c, dp, hc, hdp, rfl⟩
      · obtain ⟨u, ds, he, hds, hu⟩ := final_suffix hf
        refine ⟨u, ds, w, ?_, hds, hw, hu⟩
        rw [he]; simp
      · refine ⟨f ++ [c], dp, w, by simp, hdp, hw, ?_⟩
        have hNe : sepChar c = true := by
          rcases hc with rfl | rfl | rfl <;> decide
        exact Or.inr ⟨f, c, rfl, hNe⟩
    · refine ⟨f ++ (p ++ ['.', 'p', 'o', 's', 't']), dq, w, by simp, hdq, hw, ?_⟩
      have : f ++ (p ++ ['.', 'p', 'o', 's', 't']) =
          (f ++ (p ++ ['.', 'p', 'o', 's'])) ++ ['t'] := by simp
      rw [this]
      exact Or.inr ⟨f ++ (p ++ ['.', 'p', 'o', 's']), 't', rfl, by decide⟩
  · refine ⟨f ++ (p ++ (q ++ ['.', 'd', 'e', 'v'])), dd, w, by simp, hdd, hw, ?_⟩
    have : f ++ (p ++ (q ++ ['.', 'd', 'e', 'v'])) =
        (f ++ (p ++ (q ++ ['.', 'd', 'e']))) ++ ['v'] := by simp
    rw [this]
    exact Or.inr ⟨f ++ (p ++ (q ++ ['.', 'd', 'e'])), 'v', rfl, by decide⟩

/-! ## The behaviour of `increment_rightmost` on a well-shaped string -/

theorem lastToken_spec {u ds w : List Char} (hds : isDigits ds = true)
    (hw : w.all pySpace = true) (hu : GoodStem u) :
    lastToken (u ++ (ds ++ w)) = ds ++ w := by
  have hnotsep : ∀ c ∈ (ds ++ w).reverse, (!sepChar c) = true := by
    intro c hc
    rw [List.mem_reverse] at hc
    rcases List.mem_append.mp hc with hc | hc
    · simp [digit_not_sep (isDigits_all hds c hc)]
    · have : pySpace c = true := by
        rw [List.all_eq_true] at hw
        exact hw c hc
      simp [space_not_sep this]
  rcases hu with rfl | ⟨u0, c, rfl, hc⟩
  · have hl : ([] : List Char) ++ (ds ++ w) = ds ++ w := by simp
    rw [hl]
    simp only [lastToken]
    rw [takeWhile_all _ _ hnotsep, List.reverse_reverse]
  · have hrev : ((u0 ++ [c]) ++ (ds ++ w)).reverse =
        (ds ++ w).reverse ++ (c :: u0.reverse) := by simp
    simp only [lastToken]
    rw [hrev, takeWhile_append_all _ _ _ hnotsep,
      takeWhile_nil_of_head_false _ _ _ (by simp [hc]), List.append_nil,
      List.reverse_reverse]

theorem pyInt_digits_space {ds w : List Char} (hds : isDigits ds = true)
    (hw : w.all pySpace = true) :
    pyInt (ds ++ w) = some ((digitsToNat ds : Nat) : Int) := by
  obtain ⟨c0, r0, rfl, hc0⟩ := isDigits_head hds
  have hdrop : ((c0 :: r0) ++ w).dropWhile pySpace = (c0 :: r0) ++ w := by
    rw [List.cons_append]
    exact dropWhile_id_of_head_false _ _ _ (digit_not_space hc0)
  have hplus : c0 ≠ '+' := class_ne hc0 (by decide)
  have hminus : c0 ≠ '-' := class_ne hc0 (by decide)
  show pyInt (c0 :: r0 ++ w) = _
  rw [pyInt]
  simp only [List.cons_append] at hdrop ⊢
  rw [hdrop]
  simp only [hplus, hminus, if_false]
  rw [pyIntDigits]
  have htw : (c0 :: (r0 ++ w)).takeWhile isDigitC = c0 :: r0 := by
    have := takeWhile_append_all isDigitC (c0 :: r0) w (isDigits_all hds)
    simp only [List.cons_append] at this
    rw [this, takeWhile_digits_of_headDigit_false, List.append_nil]
    cases w with
    | nil => rfl
    | cons cw rw' =>
      show isDigitC cw = false
      exact space_not_digit (by
        rw [List.all_eq_true] at hw
        exact hw cw (List.mem_cons_self cw rw'))
  have hdw : (c0 :: (r0 ++ w)).dropWhile isDigitC = w := by
    have := dropWhile_append_all isDigitC (c0 :: r0) w (isDigits_all hds)
    simp only [List.cons_append] at this
    rw [this, dropWhile_digits_of_headDigit_false]
    cases w with
    | nil => rfl
    | cons cw rw' =>
      show isDigitC cw = false
      exact space_not_digit (by
        rw [List.all_eq_true] at hw
        exact hw cw (List.mem_cons_self cw rw'))
  simp only [htw, hdw, List.isEmpty_cons, Bool.false_eq_true, if_false, hw, if_true]
  simp

/-- `increment_rightmost` on `stem ++ digits ++ whitespace`: the digit run
and the trailing whitespace are replaced by the incremented value, the
stem survives verbatim. -/
theorem increment_rightmost_spec {u ds w : List Char} (k : Int)
    (hds : isDigits ds = true) (hw : w.all pySpace = true) (hu : GoodStem u) :
    increment_rightmost (String.mk (u ++ (ds ++ w))) k =
      some (String.mk u ++ toString ((digitsToNat ds : Int) + k)) := by
  have htok : lastToken (u ++ (ds ++ w)) = ds ++ w := lastToken_spec hds hw hu
  have hint := pyInt_digits_space hds hw
  show (match pyInt (lastToken (u ++ (ds ++ w))) with
    | none => none
    | some n => some (String.mk ((u ++ (ds ++ w)).take
        ((u ++ (ds ++ w)).length - (lastToken (u ++ (ds ++ w))).length)) ++
        toString (n + k))) = _
  rw [htok, hint]
  have hlen : (u ++ (ds ++ w)).length - (ds ++ w).length = u.length := by
    simp [List.length_append]
  rw [hlen]
  have htake : (u ++ (ds ++ w)).take u.length = u := List.take_left u (ds ++ w)
  rw [htake]

/-! ## The claims -/

/-- C1: when the latest commit equals the tagged commit, the decision
chain returns `facts.baseTag` verbatim, regardless of the branch queries,
the non-dev tag and the commit count. -/
theorem c1_exact_release (info : GitInfo)
    (tb pb ndt : Except VerError String) (h : info.cmt = info.tagged_cmt) :
    get_version_core info tb pb ndt = Except.ok info.tag := by
  simp [get_version_core, h]

/-- Witness for C1: the spec's scenario A. -/
theorem c1_exact_release_witness :
    get_version_core ⟨"master", "1.4.0", 0, "abc1234", "c0ffee", "c0ffee"⟩
      (Except.ok "m") (Except.ok "m") (Except.ok "t") = Except.ok "1.4.0" :=
  c1_exact_release _ _ _ _ rfl

/-- C2: when the latest commit differs from the tagged commit and the
tagged commit's origin branch equals the parent branch, a branch name
accepted by `valid_local_ver` yields
`nonDevTag ++ "+git." ++ branch ++ "." ++ commits ++ "." ++ sha` (with the
non-dev tag coming from the `get_non_dev_tag` query), and a rejected
branch name yields `InvalidBranch`. -/
theorem c2_branch_local (info : GitInfo) (b : String)
    (ndt : Except VerError String) (h1 : info.cmt ≠ info.tagged_cmt) :
    (valid_local_ver info.branch = true → ∀ t, ndt = Except.ok t →
      get_version_core info (Except.ok b) (Except.ok b) ndt =
        Except.ok (t ++ "+git." ++ info.branch ++ "." ++ toString info.commits
          ++ "." ++ info.sha)) ∧
    (valid_local_ver info.branch = false →
      get_version_core info (Except.ok b) (Except.ok b) ndt =
        Except.error (VerError.invalidBranch
          (info.branch ++ " is not a valid local version"))) := by
  constructor
  · intro hv t hndt
    subst hndt
    simp [get_version_core, h1, hv]
  · intro hv
    simp [get_version_core, h1, hv]

/-- Witness for C2: the spec's scenario D. -/
theorem c2_branch_local_witness :
    get_version_core ⟨"feature-x", "1.4.0", 4, "abc1234", "deadbe", "c0ffee"⟩
      (Except.ok "master") (Except.ok "master") (Except.ok "1.3.0") =
      Except.ok "1.3.0+git.feature-x.4.abc1234" := by
  have h := (c2_branch_local ⟨"feature-x", "1.4.0", 4, "abc1234", "deadbe", "c0ffee"⟩
    "master" (Except.ok "1.3.0") (by decide)).1 (by decide) "1.3.0" rfl
  exact h.trans (congrArg Except.ok (by decide))

/-- C3: in the last two decision branches (commit not tagged, tagged
commit's branch is not the parent), a `baseTag` of shape
`stem ++ digits` (the stem empty or ending in a splitting-class
character, so that the digit run is the token `increment_rightmost`
extracts) yields: for a dev tag, the digits incremented by
`commitsSinceTag`; otherwise the digits incremented by `1` followed by
`".dev" ++ commitsSinceTag`. -/
theorem c3_dev_windows (info : GitInfo) (tb pb : String)
    (ndt : Except VerError String) (u ds : List Char)
    (h1 : info.cmt ≠ info.tagged_cmt) (h2 : tb ≠ pb)
    (htag : info.tag = String.mk (u ++ ds))
    (hds : isDigits ds = true) (hu : GoodStem u) :
    (is_dev info.tag = true →
      get_version_core info (Except.ok tb) (Except.ok pb) ndt =
        Except.ok (String.mk u ++ toString ((digitsToNat ds : Int) + info.commits))) ∧
    (is_dev info.tag = false →
      get_version_core info (Except.ok tb) (Except.ok pb) ndt =
        Except.ok (String.mk u ++ toString ((digitsToNat ds : Int) + 1)
          ++ ".dev" ++ toString info.commits)) := by
  have hinc : ∀ k : Int, increment_rightmost info.tag k =
      some (String.mk u ++ toString ((digitsToNat ds : Int) + k)) := by
    intro k
    rw [htag]
    have := @increment_rightmost_spec u ds [] k hds rfl hu
    simpa using this
  constructor
  · intro hdev
    simp [get_version_core, h1, h2, hdev, hinc info.commits]
  · intro hdev
    simp [get_version_core, h1, h2, hdev, hinc 1]

/-- Witness for C3: the spec's scenarios B and C in one statement. -/
theorem c3_dev_windows_witness :
    get_version_core ⟨"b", "1.4.0.dev2", 3, "s", "t0", "c0"⟩
      (Except.ok "m") (Except.ok "x") (Except.ok "n") = Except.ok "1.4.0.dev5" ∧
    get_version_core ⟨"b", "1.4.0", 7, "s", "t0", "c0"⟩
      (Except.ok "m") (Except.ok "x") (Except.ok "n") = Except.ok "1.4.1.dev7" := by
  constructor
  · have h := (c3_dev_windows ⟨"b", "1.4.0.dev2", 3, "s", "t0", "c0"⟩ "m" "x"
      (Except.ok "n") ['1', '.', '4', '.', '0', '.', 'd', 'e', 'v'] ['2']
      (by decide) (by decide) (by decide) (by decide)
      (Or.inr ⟨['1', '.', '4', '.', '0', '.', 'd', 'e'], 'v', by decide, by decide⟩)).1
      (by decide)
    exact h.trans (congrArg Except.ok (by decide))
  · have h := (c3_dev_windows ⟨"b", "1.4.0", 7, "s", "t0", "c0"⟩ "m" "x"
      (Except.ok "n") ['1', '.', '4', '.'] ['0']
      (by decide) (by decide) (by decide) (by decide)
      (Or.inr ⟨['1', '.', '4'], '.', by decide, by decide⟩)).2
      (by decide)
    exact h.trans (congrArg Except.ok (by decide))

theorem mk_toList (s : String) : String.mk s.toList = s := rfl

/-! Branch equations of `validate_tag`, phrased with `toList`. -/

theorem validate_none_pos {tag : String} (h : pep440Match tag.toList = true) :
    validate_tag tag none = Except.ok () := by
  simp only [validate_tag]
  rw [if_pos h]

theorem validate_none_neg {tag : String} (h : pep440Match tag.toList = false) :
    validate_tag tag none =
      Except.error (VerError.invalidTag (tag ++ " does not follow PEP440")) := by
  simp only [validate_tag]
  rw [if_neg (by rw [h]; exact fun hh => Bool.noConfusion hh)]

theorem validate_some_pos {tag p : String}
    (h1 : (p.toList ++ ['-']).isPrefixOf tag.toList = true)
    (h2 : pep440Match (tag.toList.drop (p.toList.length + 1)) = true) :
    validate_tag tag (some p) = Except.ok () := by
  simp only [validate_tag]
  rw [if_pos h1, if_pos h2]

theorem validate_some_bad {tag p : String}
    (h1 : (p.toList ++ ['-']).isPrefixOf tag.toList = true)
    (h2 : pep440Match (tag.toList.drop (p.toList.length + 1)) = false) :
    validate_tag tag (some p) =
      Except.error (VerError.invalidTag
        (tag ++ " does not follow " ++ p ++ "- + PEP440")) := by
  simp only [validate_tag]
  rw [if_pos h1, if_neg (by rw [h2]; exact fun hh => Bool.noConfusion hh)]

theorem validate_some_nopre {tag p : String}
    (h1 : (p.toList ++ ['-']).isPrefixOf tag.toList = false) :
    validate_tag tag (some p) =
      Except.error (VerError.invalidTag
        (tag ++ " does not start with " ++ p ++ "-")) := by
  simp only [validate_tag]
  rw [if_neg (by rw [h1]; exact fun hh => Bool.noConfusion hh)]

/-- C4: `validate_tag` succeeds exactly when either no package name is
given and the whole tag is in the grammar `FINAL [PRE] [POST] [DEV]`
(plus optional trailing whitespace), or a package name `p` is given, the
tag starts with `p ++ "-"`, and the remainder after that prefix is in
the grammar; and every failure is an `InvalidTag`. -/
theorem c4_validate_tag (tag : String) (pkg : Option String) :
    (validate_tag tag pkg = Except.ok () ↔
      ((pkg = none ∧ IsPep440 tag.toList) ∨
       (∃ p, pkg = some p ∧ (p.toList ++ ['-']).isPrefixOf tag.toList = true ∧
         IsPep440 (tag.toList.drop (p.toList.length + 1))))) ∧
    (validate_tag tag pkg = Except.ok () ∨
      ∃ m, validate_tag tag pkg = Except.error (VerError.invalidTag m)) := by
  cases pkg with
  | none =>
    cases h : pep440Match tag.toList with
    | true =>
      refine ⟨⟨fun _ => Or.inl ⟨rfl, pep440Match_sound h⟩,
        fun _ => validate_none_pos h⟩, Or.inl (validate_none_pos h)⟩
    | false =>
      refine ⟨⟨fun hok => ?_, fun hcond => ?_⟩, Or.inr ⟨_, validate_none_neg h⟩⟩
      · rw [validate_none_neg h] at hok
        exact Except.noConfusion hok
      · rcases hcond with ⟨_, hp⟩ | ⟨p, hpk, _, _⟩
        · rw [pep440Match_complete hp] at h
          exact Bool.noConfusion h
        · exact Option.noConfusion hpk
  | some p =>
    cases hpre : (p.toList ++ ['-']).isPrefixOf tag.toList with
    | true =>
      cases h : pep440Match (tag.toList.drop (p.toList.length + 1)) with
      | true =>
        refine ⟨⟨fun _ => Or.inr ⟨p, rfl, hpre, pep440Match_sound h⟩,
          fun _ => validate_some_pos hpre h⟩, Or.inl (validate_some_pos hpre h)⟩
      | false =>
        refine ⟨⟨fun hok => ?_, fun hcond => ?_⟩, Or.inr ⟨_, validate_some_bad hpre h⟩⟩
        · rw [validate_some_bad hpre h] at hok
          exact Except.noConfusion hok
        · rcases hcond with ⟨hnone, _⟩ | ⟨p2, hpk, hpre2, hp2⟩
          · exact Option.noConfusion hnone
          · obtain rfl : p = p2 := Option.some.inj hpk
            rw [pep440Match_complete hp2] at h
            exact Bool.noConfusion h
    | false =>
      refine ⟨⟨fun hok => ?_, fun hcond => ?_⟩, Or.inr ⟨_, validate_some_nopre hpre⟩⟩
      · rw [validate_some_nopre hpre] at hok
        exact Except.noConfusion hok
      · rcases hcond with ⟨hnone, _⟩ | ⟨p2, hpk, hpre2, _⟩
        · exact Option.noConfusion hnone
        · obtain rfl : p = p2 := Option.some.inj hpk
          rw [hpre2] at hpre
          exact Bool.noConfusion hpre

/-- C5 counterexample: `"1 23"` ends in the contiguous digit run `"23"`,
yet `increment_rightmost("1 23", 1)` raises `ValueError` (modelled as
`none`) instead of returning `"1 24"`: the extracted trailing token is
the whole `"1 23"` (neither the space nor the digits belong to the
splitting class), which `int` rejects.  Moreover `" 3"` shows that even
when the oversized token parses, the characters before the digit run are
not preserved: the result is `"4"`, not `" 4"`. -/
theorem c5_counterexample :
    increment_rightmost "1 23" 1 = none ∧
    increment_rightmost " 3" 1 = some "4" ∧
    isDigitC '3' = true := by
  refine ⟨by decide, by decide, by decide⟩

/-- C5 amended: for every version string of shape `stem ++ digits`
where the digit run is nonempty and the stem is empty or ends in a
character of the class `[A-Za-z.+\-_]` (so the trailing token the split
extracts is exactly the digit run), `increment_rightmost` replaces the
digit run by its value plus the increment and preserves the stem
verbatim; in particular `"1.2.3" + 1 = "1.2.4"` and
`"2.0.dev5" + 3 = "2.0.dev8"`. -/
theorem c5_increment_rightmost (u ds : List Char) (k : Int)
    (hds : isDigits ds = true) (hu : GoodStem u) :
    increment_rightmost (String.mk (u ++ ds)) k =
      some (String.mk u ++ toString ((digitsToNat ds : Int) + k)) := by
  have h := @increment_rightmost_spec u ds [] k hds rfl hu
  simpa using h

/-- Witness for the amended C5: the spec's two concrete examples. -/
theorem c5_increment_rightmost_witness :
    increment_rightmost "1.2.3" 1 = some "1.2.4" ∧
    increment_rightmost "2.0.dev5" 3 = some "2.0.dev8" := by
  constructor
  · have h := c5_increment_rightmost ['1', '.', '2', '.'] ['3'] 1 (by decide)
      (Or.inr ⟨['1', '.', '2'], '.', by decide, by decide⟩)
    have e : ("1.2.3" : String) = String.mk (['1', '.', '2', '.'] ++ ['3']) := by decide
    rw [e, h]
    exact congrArg some (by decide)
  · have h := c5_increment_rightmost ['2', '.', '0', '.', 'd', 'e', 'v'] ['5'] 3 (by decide)
      (Or.inr ⟨['2', '.', '0', '.', 'd', 'e'], 'v', by decide, by decide⟩)
    have e : ("2.0.dev5" : String) = String.mk (['2', '.', '0', '.', 'd', 'e', 'v'] ++ ['5']) := by
      decide
    rw [e, h]
    exact congrArg some (by decide)

/-- C10: a tag accepted by `validate_tag` (with or without a package
prefix) always splits as stem-plus-digits-plus-whitespace, so
`increment_rightmost` never fails on it, for any increment. -/
theorem c10_increment_total (tag : String) (pkg : Option String)
    (h : validate_tag tag pkg = Except.ok ()) :
    ∀ k : Int, (increment_rightmost tag k).isSome = true := by
  intro k
  have hsplit : ∃ u ds w, tag.toList = u ++ (ds ++ w) ∧ isDigits ds = true ∧
      w.all pySpace = true ∧ GoodStem u := by
    cases pkg with
    | none =>
      cases hm : pep440Match tag.toList with
      | true => exact pep440_suffix (pep440Match_sound hm)
      | false =>
        rw [validate_none_neg hm] at h
        exact Except.noConfusion h
    | some p =>
      cases hpre : (p.toList ++ ['-']).isPrefixOf tag.toList with
      | true =>
        cases hm : pep440Match (tag.toList.drop (p.toList.length + 1)) with
        | true =>
          obtain ⟨u, ds, w, he, hds, hw, hu⟩ := pep440_suffix (pep440Match_sound hm)
          obtain ⟨t, ht⟩ := List.isPrefixOf_iff_prefix.mp hpre
          have hdrop : tag.toList.drop (p.toList.length + 1) = t := by
            rw [← ht]
            have hlen : p.toList.length + 1 = (p.toList ++ ['-']).length := by simp
            rw [hlen, List.drop_left]
          have ht2 : t = u ++ (ds ++ w) := by rw [← hdrop, he]
          refine ⟨(p.toList ++ ['-']) ++ u, ds, w, ?_, hds, hw, ?_⟩
          · rw [← ht, ht2]
            simp
          · rcases hu with rfl | ⟨u0, c, rfl, hc⟩
            · exact Or.inr ⟨p.toList, '-', by simp, by decide⟩
            · exact Or.inr ⟨(p.toList ++ ['-']) ++ u0, c, by simp, hc⟩
        | false =>
          rw [validate_some_bad hpre hm] at h
          exact Except.noConfusion h
      | false =>
        rw [validate_some_nopre hpre] at h
        exact Except.noConfusion h
  obtain ⟨u, ds, w, he, hds, hw, hu⟩ := hsplit
  have htag : tag = String.mk (u ++ (ds ++ w)) := by rw [← he, mk_toList]
  rw [htag, increment_rightmost_spec k hds hw hu]
  rfl

/-- Witness for C10. -/
theorem c10_increment_total_witness :
    (increment_rightmost "riverbed-1.2.3.post4 " (-7)).isSome = true :=
  c10_increment_total "riverbed-1.2.3.post4 " (some "riverbed") rfl (-7)

/-- C6: describe parsing — removing the bare tag from the long form and
splitting on `-`: exactly two non-empty parts yield
`(int(first), second[1:])` (for a hash part `g…` that strips the leading
`g`); any other number of parts is an `InvalidTag` parsing failure. -/
theorem c6_describe_parse (long_tag base_tag : String) :
    (∀ c s n rest,
      (splitChar '-' (removeAll long_tag.toList base_tag.toList)).filter
          (fun part => !part.isEmpty) = [c, s] →
      pyInt c = some n → s = 'g' :: rest →
      git_info_parse long_tag base_tag = Except.ok (n, String.mk rest)) ∧
    (((splitChar '-' (removeAll long_tag.toList base_tag.toList)).filter
          (fun part => !part.isEmpty)).length ≠ 2 →
      ∃ m, git_info_parse long_tag base_tag = Except.error (VerError.invalidTag m)) := by
  constructor
  · intro c s n rest hparts hint hs
    subst hs
    simp only [git_info_parse]
    have hpp : ((splitChar '-' (removeAll long_tag.toList base_tag.toList)).filter
        (fun p => !p.isEmpty)) = [c, 'g' :: rest] := by
      rw [← hparts]
    rw [hpp]
    simp only [git_info_parts]
    rw [hint]
    rfl
  · intro hlen
    simp only [git_info_parse]
    rcases hparts : (splitChar '-' (removeAll long_tag.toList base_tag.toList)).filter
        (fun part => !part.isEmpty) with _ | ⟨a, _ | ⟨b, _ | ⟨e, t⟩⟩⟩
    · rw [hparts]
      exact ⟨_, rfl⟩
    · rw [hparts]
      exact ⟨_, rfl⟩
    · rw [hparts] at hlen
      exact absurd rfl hlen
    · rw [hparts]
      exact ⟨_, rfl⟩

/-- Witness for C6: a well-formed describe pair, and a malformed one. -/
theorem c6_describe_parse_witness :
    git_info_parse "1.4.0-3-gabc1234" "1.4.0" = Except.ok (3, "abc1234") ∧
    (∃ m, git_info_parse "1.4.0" "1.4.0" = Except.error (VerError.invalidTag m)) := by
  constructor
  · have h := (c6_describe_parse "1.4.0-3-gabc1234" "1.4.0").1 ['3']
      ['g', 'a', 'b', 'c', '1', '2', '3', '4'] 3 ['a', 'b', 'c', '1', '2', '3', '4']
      (by decide) (by decide) rfl
    exact h.trans (congrArg Except.ok (by decide))
  · exact (c6_describe_parse "1.4.0" "1.4.0").2 (by decide)

/-- C8: in `get_version`, a failing attempt whose error is
`EnvironmentError` ("not a repository") is answered from the fallback
file — its stripped contents when present, the sentinel `"unknown"`
otherwise; any other failure propagates unchanged, and a successful
attempt is returned as is. -/
theorem c8_error_policy (repoCheck : Except VerError Unit)
    (infoRes : Except VerError GitInfo)
    (tb pb ndt : Except VerError String) (v_file : Option String) :
    (∀ m, get_version_attempt repoCheck infoRes tb pb ndt =
        Except.error (VerError.envError m) →
      get_version repoCheck infoRes tb pb ndt v_file =
        Except.ok (match v_file with
          | some content => pyStrip content
          | none => "unknown")) ∧
    (∀ e, get_version_attempt repoCheck infoRes tb pb ndt = Except.error e →
      isEnvError e = false →
      get_version repoCheck infoRes tb pb ndt v_file = Except.error e) ∧
    (∀ v, get_version_attempt repoCheck infoRes tb pb ndt = Except.ok v →
      get_version repoCheck infoRes tb pb ndt v_file = Except.ok v) := by
  refine ⟨?_, ?_, ?_⟩
  · intro m h
    simp only [get_version]
    rw [h]
    rfl
  · intro e h hne
    simp only [get_version]
    rw [h]
    simp [hne]
  · intro v h
    simp only [get_version]
    rw [h]

/-- Witness for C8: the caught `EnvironmentError` with and without a
fallback file, and a propagating `InvalidTag`. -/
theorem c8_error_policy_witness :
    get_version (Except.error (VerError.envError "fatal: not a git repo"))
      (Except.error VerError.indexError) (Except.ok "") (Except.ok "") (Except.ok "")
      (some " 9.9.9 \n") = Except.ok "9.9.9" ∧
    get_version (Except.error (VerError.envError "fatal: not a git repo"))
      (Except.error VerError.indexError) (Except.ok "") (Except.ok "") (Except.ok "")
      none = Except.ok "unknown" ∧
    get_version (Except.ok ()) (Except.error (VerError.invalidTag "bad tag"))
      (Except.ok "") (Except.ok "") (Except.ok "") (some "9.9.9") =
      Except.error (VerError.invalidTag "bad tag") := by
  refine ⟨?_, ?_, ?_⟩
  · have h := (c8_error_policy (Except.error (VerError.envError "fatal: not a git repo"))
      (Except.error VerError.indexError) (Except.ok "") (Except.ok "") (Except.ok "")
      (some " 9.9.9 \n")).1 "fatal: not a git repo" rfl
    exact h.trans (congrArg Except.ok (by decide))
  · exact (c8_error_policy (Except.error (VerError.envError "fatal: not a git repo"))
      (Except.error VerError.indexError) (Except.ok "") (Except.ok "") (Except.ok "")
      none).1 "fatal: not a git repo" rfl
  · exact (c8_error_policy (Except.ok ()) (Except.error (VerError.invalidTag "bad tag"))
      (Except.ok "") (Except.ok "") (Except.ok "") (some "9.9.9")).2.1
      (VerError.invalidTag "bad tag") rfl rfl

theorem getLast?_append_singleton {α} (l : List α) (a : α) :
    (l ++ [a]).getLast? = some a := by
  induction l with
  | nil => rfl
  | cons b l ih =>
    rw [List.cons_append]
    cases hl : l ++ [a] with
    | nil => exact absurd hl (by simp)
    | cons x xs =>
      rw [List.getLast?_cons_cons, ← hl]
      exact ih

theorem filter_eq_nil_of_all_neg {α} (p : α → Bool) (l : List α)
    (h : l.all (fun x => !p x) = true) : l.filter p = [] := by
  induction l with
  | nil => rfl
  | cons a l ih =>
    rw [List.all_cons, Bool.and_eq_true] at h
    have ha : p a = false := by
      cases hpa : p a
      · rfl
      · rw [hpa] at h; exact absurd h.1 (by simp)
    rw [List.filter_cons_of_neg (by simp [ha])]
    exact ih h.2

/-- C7 counterexample: a tag listing whose only tag is a development tag.
The claim says the empty selection fails with `InvalidTag`; the code
instead evaluates `[...][-1]` on an empty list, which raises
`IndexError`. -/
theorem c7_counterexample :
    get_non_dev_tag "'refs/tags/1.0.dev1 Mon'" none =
      Except.error VerError.indexError := rfl

/-- C7 amended: when every line of the tag listing has a first token, the
resolver returns the tag of the last line whose first token lacks
`".dev"`, after validating it (the validation error, if any, passes
through); when no line qualifies, it fails with an uncaught `IndexError`
(not `InvalidTag`). -/
theorem c7_non_dev_tag (input : String) (pkg : Option String)
    (hTok : (splitChar '\n' input.toList).all
      (fun ln => (firstToken ln).isSome) = true) :
    (∀ pre line post, splitChar '\n' input.toList = pre ++ line :: post →
      keepLine line = true → post.all (fun l => !keepLine l) = true →
      get_non_dev_tag input pkg =
        (validate_tag (extractTag line) pkg).map (fun _ => extractTag line)) ∧
    ((splitChar '\n' input.toList).all (fun l => !keepLine l) = true →
      get_non_dev_tag input pkg = Except.error VerError.indexError) := by
  constructor
  · intro pre line post hsplit hkeep hpost
    have hlast : ((splitChar '\n' input.toList).filter keepLine).getLast? = some line := by
      rw [hsplit, List.filter_append, List.filter_cons_of_pos hkeep,
        filter_eq_nil_of_all_neg _ _ hpost]
      exact getLast?_append_singleton _ _
    simp only [get_non_dev_tag]
    rw [if_pos hTok, hlast]
  · intro hnone
    have hlast : ((splitChar '\n' input.toList).filter keepLine).getLast? = none := by
      rw [filter_eq_nil_of_all_neg _ _ hnone]
      rfl
    simp only [get_non_dev_tag]
    rw [if_pos hTok, hlast]

/-- Witness for C7 (amended): two listed tags, the newer one a dev tag;
the older non-dev tag is selected and validated. -/
theorem c7_non_dev_tag_witness :
    get_non_dev_tag "'refs/tags/1.0 Mon'\n'refs/tags/2.0.dev1 Tue'" none =
      Except.ok "1.0" := by
  have h := (c7_non_dev_tag "'refs/tags/1.0 Mon'\n'refs/tags/2.0.dev1 Tue'" none
    (by decide)).1 []
    "'refs/tags/1.0 Mon'".toList ["'refs/tags/2.0.dev1 Tue'".toList]
    (by decide) (by decide) (by decide)
  exact h.trans rfl

/-- C9 counterexample: `valid_local_ver "a\n"` is `true` although `'\n'`
is not in the allowed alphabet (the regular expression's final `$` also
matches just before a trailing newline), so "true iff only letters,
digits, periods, underscores and hyphens" fails; the empty string, made
of allowed characters only (vacuously), is rejected too. -/
theorem c9_counterexample :
    valid_local_ver "a\n" = true ∧ localChar '\n' = false ∧
    valid_local_ver "" = false := by
  refine ⟨by decide, by decide, by decide⟩

/-- C9 amended: `valid_local_ver s` is `true` iff `s` is a nonempty run
of characters from `[A-Za-z0-9._-]`, optionally followed by one final
newline. -/
theorem c9_valid_local_ver (s : String) :
    valid_local_ver s = true ↔
      ((s.toList ≠ [] ∧ ∀ c ∈ s.toList, localChar c = true) ∨
       (∃ t, s.toList = t ++ ['\n'] ∧ t ≠ [] ∧ ∀ c ∈ t, localChar c = true)) := by
  have hnl : localChar '\n' = false := by decide
  constructor
  · intro h
    simp only [valid_local_ver, Bool.and_eq_true, Bool.or_eq_true,
      Bool.not_eq_true', List.isEmpty_eq_false, List.isEmpty_iff,
      decide_eq_true_eq] at h
    obtain ⟨h1, h2⟩ := h
    have hl : s.toList = s.toList.takeWhile localChar ++ s.toList.dropWhile localChar :=
      (List.takeWhile_append_dropWhile _ _).symm
    have hall : ∀ c ∈ s.toList.takeWhile localChar, localChar c = true :=
      fun c hc => List.mem_takeWhile_imp hc
    rcases h2 with h2 | h2
    · left
      rw [hl, h2, List.append_nil]
      exact ⟨h1, hall⟩
    · right
      refine ⟨s.toList.takeWhile localChar, ?_, h1, hall⟩
      conv_lhs => rw [hl]
      rw [h2]
  · intro h
    rcases h with ⟨hne, hall⟩ | ⟨t, heq, htne, hall⟩
    · have h1 : s.toList.takeWhile localChar = s.toList := takeWhile_all _ _ hall
      have h2 : s.toList.dropWhile localChar = [] := dropWhile_all_nil _ _ hall
      simp only [valid_local_ver, h1, h2]
      cases hs : s.toList with
      | nil => exact absurd hs hne
      | cons c r => simp
    · have h1 : s.toList.takeWhile localChar = t := by
        rw [heq, takeWhile_append_all _ _ _ hall,
          takeWhile_nil_of_head_false _ _ _ hnl, List.append_nil]
      have h2 : s.toList.dropWhile localChar = ['\n'] := by
        rw [heq, dropWhile_append_all _ _ _ hall,
          dropWhile_id_of_head_false _ _ _ hnl]
      simp only [valid_local_ver, h1, h2]
      cases ht : t with
      | nil => exact absurd ht htne
      | cons c r => simp

end GitPy
